import Mathlib

/-!
Verification of the Gaussian peak-fitting pipeline of the repository
mila-maya/mila-maya.github.io (diagram scripts
02-gaussian-fitting-taylor.py and 03-peak-deconvolution-step3.py).

The numeric pipeline is embedded shallowly over the rationals:
floating-point arrays become lists of rationals, numpy reductions
(trapezoid, max, polyfit, linspace) become the corresponding exact
computations, and the two fitting policies (shared-center grid search
with a linear solve per cell, bounded nonlinear least squares) are
embedded structurally.  Library internals that the repository merely
calls (numpy PRNG, numpy polyfit degeneracy handling, scipy curve_fit
iteration) are modelled from the spec where a claim depends on them;
every such definition carries a doc comment starting
"Modelled from the spec:".
-/

namespace TaylorFit

/-- np.clip(x, 0.0, None): clamp below at zero
(02-gaussian-fitting-taylor.py lines 32, 36, 42). -/
def clip0 (x : ℚ) : ℚ := max x 0

/-- np.trapezoid(y, x): trapezoidal integration over consecutive pairs
(02-gaussian-fitting-taylor.py lines 46, 49, 51, 52). -/
def trapezoid : List ℚ → List ℚ → ℚ
  | y1 :: y2 :: ys, t1 :: t2 :: ts =>
      (t2 - t1) * (y1 + y2) / 2 + trapezoid (y2 :: ys) (t2 :: ts)
  | _, _ => 0

/-- np.max over a list (maximum of the samples; 0 for the empty list,
which does not occur in the scripts). -/
def listMax : List ℚ → ℚ
  | [] => 0
  | x :: xs => xs.foldl max x

/-- np.linspace(lo, hi, n): n evenly spaced points from lo to hi
(02-gaussian-fitting-taylor.py lines 148 to 150). -/
def linspace (lo hi : ℚ) (n : ℕ) : List ℚ :=
  (List.range n).map (fun i : ℕ => lo + (hi - lo) * (i : ℚ) / ((n : ℚ) - 1))

/-- The state retained by the shared-center grid search: best residual
sum of squares so far together with the grid triple that produced it
(02-gaussian-fitting-taylor.py lines 152 to 171; the coefficient vector
and fitted curve retained alongside are determined by the triple). -/
structure GridResult where
  sse : ℚ
  t0 : ℚ
  s1 : ℚ
  s2 : ℚ
deriving DecidableEq, Repr

/-- The body of the triple-nested loop of plot_shared_t0_multi_gauss
(02-gaussian-fitting-taylor.py lines 159 to 171), expressed as a fold
over the enumerated triples: a triple with s1 >= s2 is skipped, any
other triple is solved (the solve argument stands for solve_linear
closed over the data, returning the residual sum of squares) and
retained when its residual strictly improves the best so far. -/
def scanTriples (solve : ℚ → ℚ → ℚ → ℚ) :
    List (ℚ × ℚ × ℚ) → Option GridResult → Option GridResult
  | [], best => best
  | (t0, s1, s2) :: rest, best =>
      if s2 ≤ s1 then
        scanTriples solve rest best
      else
        scanTriples solve rest
          (match best with
           | none => some ⟨solve t0 s1 s2, t0, s1, s2⟩
           | some b =>
               if solve t0 s1 s2 < b.sse then some ⟨solve t0 s1 s2, t0, s1, s2⟩
               else some b)

/-- The cartesian product enumerated by the three nested loops, in
source order: t0 outermost, then s1, then s2. -/
def tripleProduct (t0s s1s s2s : List ℚ) : List (ℚ × ℚ × ℚ) :=
  t0s.flatMap (fun t0 => s1s.flatMap (fun s1 => s2s.map (fun s2 => (t0, s1, s2))))

/-- The shared-center two-component grid search
(02-gaussian-fitting-taylor.py lines 152 to 171): scan every triple of
the three grids, starting from an empty accumulator. -/
def gridSearch (solve : ℚ → ℚ → ℚ → ℚ) (t0s s1s s2s : List ℚ) :
    Option GridResult :=
  scanTriples solve (tripleProduct t0s s1s s2s) none

/-- The t0 grid of the shared-center search
(02-gaussian-fitting-taylor.py line 148). -/
def t0Grid (t0Est : ℚ) : List ℚ :=
  linspace (t0Est - 3/10) (t0Est + 3/10) 21

/-- The sigma-narrow grid of the shared-center search
(02-gaussian-fitting-taylor.py line 149). -/
def s1Grid (sigmaEst : ℚ) : List ℚ :=
  linspace (max (4/100) (15/100 * sigmaEst)) (max (20/100) (7/10 * sigmaEst)) 12

/-- The sigma-wide grid of the shared-center search
(02-gaussian-fitting-taylor.py line 150). -/
def s2Grid (sigmaEst : ℚ) : List ℚ :=
  linspace (max (3/10) (8/10 * sigmaEst)) (max 1 (22/10 * sigmaEst)) 14

/-- The weights and area of the moment estimator
(02-gaussian-fitting-taylor.py lines 43 to 49 and 138 to 143): samples
below 10 percent of the maximum baseline-subtracted value are zeroed;
if the trapezoidal area of the thresholded weights is not positive the
unthresholded values are used instead (in exact rational arithmetic the
non-finite branch of the source condition cannot occur). -/
def momentWeights (ts s0 : List ℚ) : List ℚ × ℚ :=
  let threshold := (10/100) * listMax s0
  let weights := s0.map (fun v => if threshold ≤ v then v else 0)
  let area := trapezoid weights ts
  if area ≤ 0 then (s0, trapezoid s0 ts) else (weights, area)

/-- The moment-estimated center (02-gaussian-fitting-taylor.py lines 51
and 144): first moment of the weights over the grid, the area clamped
below at 1e-12. -/
def momentCenter (ts s0 : List ℚ) : ℚ :=
  trapezoid (List.zipWith (fun u v => u * v) ts (momentWeights ts s0).1) ts /
    max (momentWeights ts s0).2 (1/10^12)

/-- The moment-estimated variance (02-gaussian-fitting-taylor.py lines
52 and 145): second central moment of the weights, the area clamped
below at 1e-12. -/
def momentVar (ts s0 : List ℚ) : ℚ :=
  trapezoid (List.zipWith (fun u v => (u - momentCenter ts s0) ^ 2 * v) ts
      (momentWeights ts s0).1) ts /
    max (momentWeights ts s0).2 (1/10^12)

/-- The square of the single-peak sigma estimate
(02-gaussian-fitting-taylor.py line 53): the source takes the square
root of this clamped variance, so the sigma claims are stated at the
variance level. -/
def singlePeakSigmaSq (ts s0 : List ℚ) : ℚ := max (momentVar ts s0) (1/10^12)

/-- The square of the two-component seeding sigma estimate
(02-gaussian-fitting-taylor.py line 146), with the coarser 1e-6 floor. -/
def twoCompSigmaSq (ts s0 : List ℚ) : ℚ := max (momentVar ts s0) (1/10^6)

/-- The error kinds of the designed core (spec section 7). -/
inductive FitError where
  | degenerateBaseline : FitError
  | invalidGridConstraint : FitError
deriving DecidableEq, Repr

/-- Modelled from the spec: the explicit "no valid narrow<wide grid
point" failure (InvalidGridConstraintError, spec sections 4.4b and 7).
The script itself has no raise: when no grid point is retained the
accumulator stays None and line 173 fails on unpacking it, so the
explicit error demanded by the spec is missing from the source and is
modelled here as a checked wrapper around the source loop. -/
def checkedGridSearch (solve : ℚ → ℚ → ℚ → ℚ) (t0s s1s s2s : List ℚ) :
    Except FitError GridResult :=
  match gridSearch solve t0s s1s s2s with
  | none => .error .invalidGridConstraint
  | some r => .ok r

/-- The synthetic signal of plot_single_gauss
(02-gaussian-fitting-taylor.py lines 27 to 36): analytic peak plus
baseline plus noise, clamped at zero, then sparse spikes added at fixed
indices, then clamped at zero again. -/
def syntheticSignal (peak baseline noise : List ℚ)
    (spikes : List (ℕ × ℚ)) : List ℚ :=
  let signal := (List.zipWith (fun u v => u + v)
    (List.zipWith (fun u v => u + v) peak baseline) noise).map clip0
  let spiked := spikes.foldl (fun s p => s.set p.1 (s.getD p.1 0 + p.2)) signal
  spiked.map clip0

/-- Modelled from the spec: the seeded noise stream.  The scripts call
np.random.default_rng(seed) (02-gaussian-fitting-taylor.py lines 19 and
97, 03-peak-deconvolution-step3.py line 31), which is numpy library
code outside the repository; the spec (section 4.1) requires only that
the stream be a deterministic pure function of the seed, modelled here
by a linear congruential generator mapped into [-1, 1]. -/
def lcg (s : ℕ) : ℕ := (6364136223846793005 * s + 1442695040888963407) % (2 ^ 64)

/-- Iterate the congruential generator n times from a seed. -/
def lcgIter : ℕ → ℕ → ℕ
  | 0, s => s
  | n + 1, s => lcgIter n (lcg s)

/-- The first n noise samples drawn from a seed. -/
def noiseStream (seed n : ℕ) : List ℚ :=
  (List.range n).map (fun i : ℕ => ((lcgIter (i + 1) seed % 2001 : ℕ) : ℚ) / 1000 - 1)

/-- The seeded generator: the analytic parts combined with the seeded
noise stream and the spikes, as in plot_single_gauss. -/
def generateSeeded (peak baseline : List ℚ) (spikes : List (ℕ × ℚ))
    (seed : ℕ) : List ℚ :=
  syntheticSignal peak baseline (noiseStream seed peak.length) spikes

/-- The clamped sigma of the Gaussian kernel
(03-peak-deconvolution-step3.py line 16). -/
def sigmaSafe (s : ℚ) : ℚ := max s (1/10^9)

/-- The area-parameterized Gaussian kernel of _gauss
(03-peak-deconvolution-step3.py lines 15 to 17).  The exponential is
passed as a function argument because the embedding is exact while
np.exp is transcendental; every claim below is proved for an arbitrary
exponential function, hence in particular for the one the script
uses. -/
def gaussKernel (E : ℚ → ℚ) (x area center sigma : ℚ) : ℚ :=
  area * E (-(1/2) * ((x - center) / sigmaSafe sigma) ^ 2)

/-- The mean of a sample list, np.mean(x)
(03-peak-deconvolution-step3.py line 23). -/
def listMean (xs : List ℚ) : ℚ := xs.sum / (xs.length : ℚ)

/-- The component count inferred from the flat parameter vector,
(len(params) - 2) // 3 (03-peak-deconvolution-step3.py line 21). -/
def nComp (params : List ℚ) : ℕ := (params.length - 2) / 3

/-- The general multi-Gaussian-plus-linear-baseline model _fit_model
(03-peak-deconvolution-step3.py lines 20 to 27): the last two
parameters are the baseline intercept and slope about the mean of the
grid, and each consecutive parameter triple contributes one
area-parameterized Gaussian. -/
def fit_model (E : ℚ → ℚ) (params : List ℚ) (xs : List ℚ) : List ℚ :=
  xs.map (fun x =>
    (List.range (nComp params)).foldl
      (fun y i => y + gaussKernel E x (params.getD (3 * i) 0)
        (params.getD (3 * i + 1) 0) (params.getD (3 * i + 2) 0))
      (params.getD (params.length - 2) 0 +
        params.getD (params.length - 1) 0 * (x - listMean xs)))

/-- The flat parameter vector [area_1, center_1, sigma_1, ...,
intercept, slope] built from a component list, the layout the script
feeds to curve_fit (03-peak-deconvolution-step3.py lines 43 to 55). -/
def packParams (comps : List (ℚ × ℚ × ℚ)) (c0 c1 : ℚ) : List ℚ :=
  comps.flatMap (fun p => [p.1, p.2.1, p.2.2]) ++ [c0, c1]

/-- One iterate of the nonlinear solver: a parameter vector and its
residual sum of squares. -/
structure FitState where
  params : List ℚ
  residual : ℚ
deriving DecidableEq, Repr

/-- Outcome of the bounded nonlinear solver: convergence to an iterate,
or a convergence error carrying the best iterate seen. -/
inductive FitOutcome where
  | ok (result : FitState) : FitOutcome
  | convergenceError (best : FitState) : FitOutcome
deriving DecidableEq, Repr

/-- Modelled from the spec: the bounded nonlinear least-squares driver
and its FitConvergenceError (spec sections 4.4a and 7).  The script
calls scipy curve_fit with maxfev 120000
(03-peak-deconvolution-step3.py lines 57 to 64); the optimizer
iteration is scipy library code outside the repository.  The spec
requires iterating up to the cap, returning an iterate that satisfies
the convergence test, and, when the cap is exhausted, surfacing a
convergence error that carries the best-so-far iterate. -/
def runFitAux (step : FitState → FitState) (conv : FitState → Bool) :
    ℕ → FitState → FitState → FitOutcome
  | 0, _, best => .convergenceError best
  | n + 1, s, best =>
      if conv s then .ok s
      else runFitAux step conv n (step s)
        (if (step s).residual < best.residual then step s else best)

/-- Run the bounded solver from an initial iterate, the initial iterate
being the initial best. -/
def runFit (step : FitState → FitState) (conv : FitState → Bool)
    (cap : ℕ) (s0 : FitState) : FitOutcome :=
  runFitAux step conv cap s0 s0

/-- The first n iterates of the solver from a start state. -/
def iterates (step : FitState → FitState) : ℕ → FitState → List FitState
  | 0, _ => []
  | n + 1, s => s :: iterates step n (step s)

/-! Lemmas about the grid scan. -/

/-- Scanning from a populated accumulator yields a result whose residual
does not exceed the residual already in the accumulator. -/
theorem scanTriples_mono (solve : ℚ → ℚ → ℚ → ℚ) :
    ∀ (l : List (ℚ × ℚ × ℚ)) (b : GridResult),
      ∃ r, scanTriples solve l (some b) = some r ∧ r.sse ≤ b.sse := by
  intro l
  induction l with
  | nil => intro b; exact ⟨b, rfl, le_refl _⟩
  | cons p rest ih =>
      intro b
      obtain ⟨t0, s1, s2⟩ := p
      by_cases h : s2 ≤ s1
      · simpa [scanTriples, h] using ih b
      · simp only [scanTriples, if_neg h]
        by_cases hlt : solve t0 s1 s2 < b.sse
        · obtain ⟨r, hr, hle⟩ := ih ⟨solve t0 s1 s2, t0, s1, s2⟩
          exact ⟨r, by simpa [hlt] using hr, le_trans hle (le_of_lt hlt)⟩
        · obtain ⟨r, hr, hle⟩ := ih b
          exact ⟨r, by simpa [hlt] using hr, hle⟩

/-- If some triple of the scanned list satisfies the narrow-strictly-
less-than-wide constraint, the scan retains a result whose residual is
at most the residual of that triple. -/
theorem scanTriples_min (solve : ℚ → ℚ → ℚ → ℚ) :
    ∀ (l : List (ℚ × ℚ × ℚ)) (t0 s1 s2 : ℚ), (t0, s1, s2) ∈ l → s1 < s2 →
      ∀ best : Option GridResult,
        ∃ r, scanTriples solve l best = some r ∧ r.sse ≤ solve t0 s1 s2 := by
  intro l
  induction l with
  | nil => intro t0 s1 s2 hmem; exact absurd hmem (List.not_mem_nil _)
  | cons p rest ih =>
      intro t0 s1 s2 hmem hlt best
      rcases List.mem_cons.mp hmem with heq | htail
      · subst heq
        have hns : ¬ s2 ≤ s1 := not_le.mpr hlt
        simp only [scanTriples, if_neg hns]
        cases best with
        | none =>
            obtain ⟨r, hr, hle⟩ := scanTriples_mono solve rest ⟨solve t0 s1 s2, t0, s1, s2⟩
            exact ⟨r, hr, hle⟩
        | some b =>
            by_cases hc : solve t0 s1 s2 < b.sse
            · obtain ⟨r, hr, hle⟩ := scanTriples_mono solve rest ⟨solve t0 s1 s2, t0, s1, s2⟩
              exact ⟨r, by simpa [hc] using hr, hle⟩
            · obtain ⟨r, hr, hle⟩ := scanTriples_mono solve rest b
              exact ⟨r, by simpa [hc] using hr, le_trans hle (not_lt.mp hc)⟩
      · obtain ⟨q0, q1, q2⟩ := p
        by_cases h : q2 ≤ q1
        · simpa [scanTriples, h] using ih t0 s1 s2 htail hlt best
        · simp only [scanTriples, if_neg h]
          cases best with
          | none => exact ih t0 s1 s2 htail hlt _
          | some b =>
              by_cases hc : solve q0 q1 q2 < b.sse
              · simpa [hc] using ih t0 s1 s2 htail hlt _
              · simpa [hc] using ih t0 s1 s2 htail hlt _

/-- Any result retained by the scan satisfies the narrow-strictly-less-
than-wide constraint, provided the starting accumulator does. -/
theorem scanTriples_valid (solve : ℚ → ℚ → ℚ → ℚ) :
    ∀ (l : List (ℚ × ℚ × ℚ)) (best : Option GridResult),
      (∀ b, best = some b → b.s1 < b.s2) →
      ∀ r, scanTriples solve l best = some r → r.s1 < r.s2 := by
  intro l
  induction l with
  | nil => intro best hinv r hr; exact hinv r hr
  | cons p rest ih =>
      intro best hinv r hr
      obtain ⟨t0, s1, s2⟩ := p
      by_cases h : s2 ≤ s1
      · exact ih best hinv r (by simpa [scanTriples, h] using hr)
      · simp only [scanTriples, if_neg h] at hr
        cases best with
        | none =>
            refine ih _ ?_ r hr
            intro b hb
            cases hb
            exact not_le.mp h
        | some b0 =>
            by_cases hc : solve t0 s1 s2 < b0.sse
            · refine ih _ ?_ r (by simpa [hc] using hr)
              intro b hb
              cases hb
              exact not_le.mp h
            · refine ih _ ?_ r (by simpa [hc] using hr)
              intro b hb
              cases hb
              exact hinv b0 rfl

/-- If every triple of the list violates the constraint, the scan
leaves the accumulator untouched. -/
theorem scanTriples_allInvalid (solve : ℚ → ℚ → ℚ → ℚ) :
    ∀ (l : List (ℚ × ℚ × ℚ)) (best : Option GridResult),
      (∀ p ∈ l, p.2.2 ≤ p.2.1) → scanTriples solve l best = best := by
  intro l
  induction l with
  | nil => intro best _; rfl
  | cons p rest ih =>
      intro best hall
      obtain ⟨t0, s1, s2⟩ := p
      have h : s2 ≤ s1 := hall (t0, s1, s2) (List.mem_cons_self _ _)
      simp only [scanTriples, if_pos h]
      exact ih best (fun q hq => hall q (List.mem_cons_of_mem _ hq))

/-- Membership in the enumerated cartesian product. -/
theorem mem_tripleProduct {t0s s1s s2s : List ℚ} {t0 s1 s2 : ℚ}
    (h0 : t0 ∈ t0s) (h1 : s1 ∈ s1s) (h2 : s2 ∈ s2s) :
    (t0, s1, s2) ∈ tripleProduct t0s s1s s2s := by
  unfold tripleProduct
  exact List.mem_flatMap.mpr
    ⟨t0, h0, List.mem_flatMap.mpr ⟨s1, h1, List.mem_map.mpr ⟨s2, h2, rfl⟩⟩⟩

/-- Components of a member of the enumerated cartesian product. -/
theorem of_mem_tripleProduct {t0s s1s s2s : List ℚ} {p : ℚ × ℚ × ℚ}
    (h : p ∈ tripleProduct t0s s1s s2s) :
    p.1 ∈ t0s ∧ p.2.1 ∈ s1s ∧ p.2.2 ∈ s2s := by
  unfold tripleProduct at h
  obtain ⟨t0, h0, h⟩ := List.mem_flatMap.mp h
  obtain ⟨s1, h1, h⟩ := List.mem_flatMap.mp h
  obtain ⟨s2, h2, rfl⟩ := List.mem_map.mp h
  exact ⟨h0, h1, h2⟩

/-! Lemmas about linspace. -/

/-- The left endpoint belongs to a nonempty linspace. -/
theorem linspace_mem_left {lo hi : ℚ} {n : ℕ} (hn : 0 < n) :
    lo ∈ linspace lo hi n := by
  unfold linspace
  refine List.mem_map.mpr ⟨0, List.mem_range.mpr hn, ?_⟩
  simp

/-- The right endpoint belongs to a linspace of at least two points. -/
theorem linspace_mem_right {lo hi : ℚ} {n : ℕ} (hn : 2 ≤ n) :
    hi ∈ linspace lo hi n := by
  unfold linspace
  refine List.mem_map.mpr ⟨n - 1, List.mem_range.mpr ?_, ?_⟩
  · omega
  · have h1 : (1 : ℕ) ≤ n := le_trans (by norm_num) hn
    have hcast : ((n - 1 : ℕ) : ℚ) = (n : ℚ) - 1 := by
      rw [Nat.cast_sub h1, Nat.cast_one]
    have hne : (n : ℚ) - 1 ≠ 0 := by
      have : (2 : ℚ) ≤ (n : ℚ) := by exact_mod_cast hn
      linarith
    rw [hcast, mul_div_assoc, div_self hne, mul_one]
    ring

/-- Every member of a linspace with ordered endpoints is at least the
left endpoint. -/
theorem linspace_le_mem {lo hi : ℚ} {n : ℕ} (hle : lo ≤ hi) :
    ∀ x ∈ linspace lo hi n, lo ≤ x := by
  intro x hx
  unfold linspace at hx
  obtain ⟨i, _, rfl⟩ := List.mem_map.mp hx
  have hnum : 0 ≤ (hi - lo) * (i : ℚ) :=
    mul_nonneg (by linarith) (by positivity)
  rcases le_or_lt ((n : ℚ) - 1) 0 with hd | hd
  · rcases eq_or_lt_of_le hd with he | hlt0
    · rw [he, div_zero]; linarith
    · have : (hi - lo) * (i : ℚ) / ((n : ℚ) - 1) ≤ 0 :=
        div_nonpos_of_nonneg_of_nonpos hnum (le_of_lt hlt0)
      -- the denominator is negative only for n = 0, where the range is empty
      have hn0 : n = 0 := by
        by_contra hne
        have : (1 : ℚ) ≤ (n : ℚ) := by
          exact_mod_cast Nat.one_le_iff_ne_zero.mpr hne
        linarith
      subst hn0
      simp at hx
  · have : 0 ≤ (hi - lo) * (i : ℚ) / ((n : ℚ) - 1) :=
      div_nonneg hnum (le_of_lt hd)
    linarith

/-- Every member of a linspace with ordered endpoints is at most the
right endpoint. -/
theorem linspace_mem_le {lo hi : ℚ} {n : ℕ} (hle : lo ≤ hi) :
    ∀ x ∈ linspace lo hi n, x ≤ hi := by
  intro x hx
  unfold linspace at hx
  obtain ⟨i, hi_mem, rfl⟩ := List.mem_map.mp hx
  have hin : i < n := List.mem_range.mp hi_mem
  rcases Nat.lt_or_ge n 2 with hn | hn
  · -- n = 1 (n = 0 has no members): the denominator is 0 and the point is lo
    have hn1 : n = 1 := by omega
    subst hn1
    have hi0 : i = 0 := by omega
    subst hi0
    simp only [Nat.cast_one, Nat.cast_zero]
    norm_num
    exact hle
  · have hd : (0 : ℚ) < (n : ℚ) - 1 := by
      have : (2 : ℚ) ≤ (n : ℚ) := by exact_mod_cast hn
      linarith
    have hic : (i : ℚ) ≤ (n : ℚ) - 1 := by
      have : (i : ℚ) ≤ ((n - 1 : ℕ) : ℚ) := by
        exact_mod_cast Nat.le_sub_one_of_lt hin
      rwa [Nat.cast_sub (by omega), Nat.cast_one] at this
    have hnum : (hi - lo) * (i : ℚ) ≤ (hi - lo) * ((n : ℚ) - 1) :=
      mul_le_mul_of_nonneg_left hic (by linarith)
    have hdiv : (hi - lo) * (i : ℚ) / ((n : ℚ) - 1) ≤
        (hi - lo) * ((n : ℚ) - 1) / ((n : ℚ) - 1) :=
      (div_le_div_iff_of_pos_right hd).mpr hnum
    rw [mul_div_cancel_right₀ _ (ne_of_gt hd)] at hdiv
    linarith

/-! The claim theorems about the grid search. -/

/-- C1: in the shared-center two-component grid search, for every grid
triple (t0, sigma_narrow, sigma_wide) drawn from the three grids with
sigma_narrow < sigma_wide, the retained result exists, its residual sum
of squares is at most the residual of the least-squares solve at that
triple (global minimality over the valid grid), and the retained triple
itself satisfies sigma_narrow < sigma_wide because every violating
triple is skipped. -/
theorem spec_c1_grid_search_minimality (solve : ℚ → ℚ → ℚ → ℚ)
    (t0s s1s s2s : List ℚ) (t0 s1 s2 : ℚ)
    (h0 : t0 ∈ t0s) (h1 : s1 ∈ s1s) (h2 : s2 ∈ s2s) (hlt : s1 < s2) :
    ∃ r, gridSearch solve t0s s1s s2s = some r ∧
      r.sse ≤ solve t0 s1 s2 ∧ r.s1 < r.s2 := by
  obtain ⟨r, hr, hle⟩ := scanTriples_min solve (tripleProduct t0s s1s s2s)
    t0 s1 s2 (mem_tripleProduct h0 h1 h2) hlt none
  refine ⟨r, hr, hle, ?_⟩
  exact scanTriples_valid solve (tripleProduct t0s s1s s2s) none
    (fun b hb => by cases hb) r hr

/-- Witness for C1 at a concrete grid and residual function. -/
theorem spec_c1_grid_search_minimality_witness :
    ∃ r, gridSearch (fun _ _ _ => 5) [0] [1] [2] = some r ∧
      r.sse ≤ 5 ∧ r.s1 < r.s2 :=
  spec_c1_grid_search_minimality (fun _ _ _ => 5) [0] [1] [2] 0 1 2
    (by decide) (by decide) (by decide) (by decide)

/-- C5: when every sigma-narrow candidate is at least every sigma-wide
candidate, no grid point is retained (the source accumulator stays
None) and the checked fitter modelled from the spec raises the explicit
InvalidGridConstraintError instead of failing in an unrelated way. -/
theorem spec_c5_invalid_grid_constraint (solve : ℚ → ℚ → ℚ → ℚ)
    (t0s s1s s2s : List ℚ)
    (h : ∀ s1 ∈ s1s, ∀ s2 ∈ s2s, s2 ≤ s1) :
    checkedGridSearch solve t0s s1s s2s = .error .invalidGridConstraint ∧
      gridSearch solve t0s s1s s2s = none := by
  have hnone : gridSearch solve t0s s1s s2s = none := by
    unfold gridSearch
    refine scanTriples_allInvalid solve _ none ?_
    intro p hp
    obtain ⟨_, h1, h2⟩ := of_mem_tripleProduct hp
    exact h p.2.1 h1 p.2.2 h2
  refine ⟨?_, hnone⟩
  unfold checkedGridSearch
  rw [hnone]

/-- Witness for C5 at a concrete degenerate grid. -/
theorem spec_c5_invalid_grid_constraint_witness :
    checkedGridSearch (fun _ _ _ => 0) [0] [2] [1] = .error .invalidGridConstraint ∧
      gridSearch (fun _ _ _ => 0) [0] [2] [1] = none :=
  spec_c5_invalid_grid_constraint (fun _ _ _ => 0) [0] [2] [1] (by decide)

/-- C10: for every nonnegative moment-estimated sigma, the smallest
sigma-narrow grid value is max(0.04, 0.15 sigma), the largest
sigma-wide grid value is max(1.0, 2.2 sigma), the former is strictly
below the latter, so the grid search as constructed by the script
always retains some result (the accumulator is never None and the
final coefficient unpacking cannot fail). -/
theorem spec_c10_grid_always_valid (solve : ℚ → ℚ → ℚ → ℚ)
    (t0Est sigmaEst : ℚ) (hs : 0 ≤ sigmaEst) :
    (max (4/100) (15/100 * sigmaEst) ∈ s1Grid sigmaEst ∧
      ∀ x ∈ s1Grid sigmaEst, max (4/100) (15/100 * sigmaEst) ≤ x) ∧
    (max 1 (22/10 * sigmaEst) ∈ s2Grid sigmaEst ∧
      ∀ x ∈ s2Grid sigmaEst, x ≤ max 1 (22/10 * sigmaEst)) ∧
    max (4/100) (15/100 * sigmaEst) < max 1 (22/10 * sigmaEst) ∧
    ∃ r, gridSearch solve (t0Grid t0Est) (s1Grid sigmaEst) (s2Grid sigmaEst) = some r := by
  have h1le : max (4/100) (15/100 * sigmaEst) ≤ max (20/100) (7/10 * sigmaEst) := by
    refine max_le (le_max_of_le_left (by norm_num)) (le_max_of_le_right ?_)
    nlinarith
  have h2le : max (3/10) (8/10 * sigmaEst) ≤ max 1 (22/10 * sigmaEst) := by
    refine max_le (le_max_of_le_left (by norm_num)) (le_max_of_le_right ?_)
    nlinarith
  have hlt : max (4/100) (15/100 * sigmaEst) < max 1 (22/10 * sigmaEst) := by
    refine max_lt_iff.mpr ⟨lt_max_of_lt_left (by norm_num), ?_⟩
    rcases eq_or_lt_of_le hs with he | hpos
    · rw [← he]; norm_num
    · exact lt_max_of_lt_right (by nlinarith)
  have hm1 : max (4/100) (15/100 * sigmaEst) ∈ s1Grid sigmaEst :=
    linspace_mem_left (by norm_num)
  have hm2 : max 1 (22/10 * sigmaEst) ∈ s2Grid sigmaEst :=
    linspace_mem_right (by norm_num)
  have hm0 : t0Est - 3/10 ∈ t0Grid t0Est := linspace_mem_left (by norm_num)
  refine ⟨⟨hm1, linspace_le_mem h1le⟩, ⟨hm2, linspace_mem_le h2le⟩, hlt, ?_⟩
  obtain ⟨r, hr, _⟩ := scanTriples_min solve
    (tripleProduct (t0Grid t0Est) (s1Grid sigmaEst) (s2Grid sigmaEst))
    (t0Est - 3/10) (max (4/100) (15/100 * sigmaEst)) (max 1 (22/10 * sigmaEst))
    (mem_tripleProduct hm0 hm1 hm2) hlt none
  exact ⟨r, hr⟩

/-! The degree-1 baseline least-squares fit. -/

/-- np.polyfit(t, y, 1) (02-gaussian-fitting-taylor.py lines 39 and
135): the least-squares line through the sample points, written in the
closed normal-equation form, which agrees with the Vandermonde
least-squares solve whenever the sample is nondegenerate.  Returns
(slope, intercept), the coefficient order of np.polyfit for degree 1. -/
def polyfit1 (ts ys : List ℚ) : ℚ × ℚ :=
  let n : ℚ := (ts.length : ℚ)
  let st := ts.sum
  let sy := ys.sum
  let stt := (ts.map (fun x => x ^ 2)).sum
  let sty := (List.zipWith (fun u v => u * v) ts ys).sum
  let slope := (n * sty - st * sy) / (n * stt - st ^ 2)
  (slope, (sy - slope * st) / n)

/-- Modelled from the spec: the DegenerateBaselineError check of spec
sections 4.2 and 7.  The script (02-gaussian-fitting-taylor.py line 39)
calls np.polyfit on the masked points directly; degenerate-input
handling lives inside numpy, outside the repository, so the designed
fewer-than-2-points check is modelled here around the embedded
polyfit1. -/
def baselineFit (pts : List (ℚ × ℚ)) : Except FitError (ℚ × ℚ) :=
  if pts.length < 2 then .error .degenerateBaseline
  else .ok (polyfit1 (pts.map Prod.fst) (pts.map Prod.snd))

/-- The normal-equation denominator of the degree-1 fit. -/
def lsqDenom (l : List ℚ) : ℚ :=
  (l.length : ℚ) * (l.map (fun x => x ^ 2)).sum - l.sum ^ 2

theorem sum_map_shift_sq (t : ℚ) (l : List ℚ) :
    (l.map (fun s => (t - s) ^ 2)).sum =
      (l.length : ℚ) * t ^ 2 - 2 * t * l.sum + (l.map (fun x => x ^ 2)).sum := by
  induction l with
  | nil => simp
  | cons x xs ih =>
      simp only [List.map_cons, List.sum_cons, List.length_cons, ih]
      push_cast
      ring

theorem lsqDenom_cons (t : ℚ) (l : List ℚ) :
    lsqDenom (t :: l) = lsqDenom l + (l.map (fun s => (t - s) ^ 2)).sum := by
  simp only [lsqDenom, List.map_cons, List.sum_cons, List.length_cons,
    sum_map_shift_sq]
  push_cast
  ring

theorem lsqDenom_nonneg (l : List ℚ) : 0 ≤ lsqDenom l := by
  induction l with
  | nil => simp [lsqDenom]
  | cons x xs ih =>
      rw [lsqDenom_cons]
      have h : 0 ≤ (xs.map (fun s => (x - s) ^ 2)).sum :=
        List.sum_nonneg (by
          intro v hv
          obtain ⟨s, _, rfl⟩ := List.mem_map.mp hv
          positivity)
      linarith

theorem lsqDenom_pos (t1 t2 : ℚ) (rest : List ℚ) (hne : t1 ≠ t2) :
    0 < lsqDenom (t1 :: t2 :: rest) := by
  rw [lsqDenom_cons]
  have h1 : 0 ≤ lsqDenom (t2 :: rest) := lsqDenom_nonneg _
  have h2 : ((t2 :: rest).map (fun s => (t1 - s) ^ 2)).sum =
      (t1 - t2) ^ 2 + (rest.map (fun s => (t1 - s) ^ 2)).sum := by
    simp
  have h3 : 0 ≤ (rest.map (fun s => (t1 - s) ^ 2)).sum :=
    List.sum_nonneg (by
      intro v hv
      obtain ⟨s, _, rfl⟩ := List.mem_map.mp hv
      positivity)
  have h4 : 0 < (t1 - t2) ^ 2 := by
    have : t1 - t2 ≠ 0 := sub_ne_zero_of_ne hne
    positivity
  rw [h2]
  linarith

theorem sum_map_affine (a b : ℚ) (l : List ℚ) :
    (l.map (fun x => a + b * x)).sum = a * (l.length : ℚ) + b * l.sum := by
  induction l with
  | nil => simp
  | cons x xs ih =>
      simp only [List.map_cons, List.sum_cons, List.length_cons, ih]
      push_cast
      ring

theorem zipWith_mul_map (f : ℚ → ℚ) (ts : List ℚ) :
    List.zipWith (fun u v => u * v) ts (ts.map f) =
      ts.map (fun t => t * f t) := by
  induction ts with
  | nil => rfl
  | cons x xs ih => simp [ih]

theorem sum_map_mul_affine (a b : ℚ) (l : List ℚ) :
    (l.map (fun t => t * (a + b * t))).sum =
      a * l.sum + b * (l.map (fun x => x ^ 2)).sum := by
  induction l with
  | nil => simp
  | cons x xs ih =>
      simp only [List.map_cons, List.sum_cons, ih]
      ring

/-- C8: fitting the degree-1 baseline estimator to samples generated
exactly as intercept + slope * t over a strictly increasing grid of at
least two points recovers the slope and intercept exactly (hence in
particular to within 1e-9); the flat 0.05 scenario is the instance
slope = 0, intercept = 1/20 realized in the witness below. -/
theorem spec_c8_baseline_roundtrip (ts : List ℚ) (a b : ℚ)
    (hchain : ts.Chain' (fun u v => u < v)) (hlen : 2 ≤ ts.length) :
    polyfit1 ts (ts.map (fun x => a + b * x)) = (b, a) := by
  match ts, hlen with
  | t1 :: t2 :: rest, _ =>
    have hne12 : t1 ≠ t2 :=
      ne_of_lt (List.chain'_cons.mp hchain).1
  -- the normal-equation denominator is positive, hence nonzero
    have hdpos : 0 < lsqDenom (t1 :: t2 :: rest) := lsqDenom_pos t1 t2 rest hne12
    have hd : ((t1 :: t2 :: rest).length : ℚ) *
        ((t1 :: t2 :: rest).map (fun x => x ^ 2)).sum -
        (t1 :: t2 :: rest).sum ^ 2 ≠ 0 := ne_of_gt hdpos
    have hn : ((t1 :: t2 :: rest).length : ℚ) ≠ 0 := by
      simp only [List.length_cons]
      push_cast
      positivity
    have hsy := sum_map_affine a b (t1 :: t2 :: rest)
    have hsty : (List.zipWith (fun u v => u * v) (t1 :: t2 :: rest)
        ((t1 :: t2 :: rest).map (fun x => a + b * x))).sum =
        a * (t1 :: t2 :: rest).sum +
          b * ((t1 :: t2 :: rest).map (fun x => x ^ 2)).sum := by
      rw [zipWith_mul_map, sum_map_mul_affine]
    simp only [polyfit1, hsy, hsty]
    have hslope : ((t1 :: t2 :: rest).length : ℚ) *
        (a * (t1 :: t2 :: rest).sum + b * ((t1 :: t2 :: rest).map (fun x => x ^ 2)).sum) -
        (t1 :: t2 :: rest).sum *
          (a * ((t1 :: t2 :: rest).length : ℚ) + b * (t1 :: t2 :: rest).sum) =
        b * (((t1 :: t2 :: rest).length : ℚ) *
          ((t1 :: t2 :: rest).map (fun x => x ^ 2)).sum - (t1 :: t2 :: rest).sum ^ 2) := by
      ring
    rw [hslope, mul_div_assoc, div_self hd, mul_one]
    have hint : a * ((t1 :: t2 :: rest).length : ℚ) + b * (t1 :: t2 :: rest).sum -
        b * (t1 :: t2 :: rest).sum = a * ((t1 :: t2 :: rest).length : ℚ) := by
      ring
    rw [hint, mul_div_assoc, div_self hn, mul_one]

/-- Witness for C8: the flat signal of constant value 0.05 on the grid
[0, 1, 2] yields slope 0 and intercept 0.05 exactly. -/
theorem spec_c8_baseline_roundtrip_witness :
    polyfit1 [0, 1, 2] ([0, 1, 2].map (fun x => 1/20 + 0 * x)) = (0, 1/20) :=
  spec_c8_baseline_roundtrip [0, 1, 2] (1/20) 0
    (by norm_num [List.chain'_cons]) (by decide)

/-- The degree-1 least-squares fit through exactly two distinct points
interpolates both of them. -/
theorem polyfit1_two_points (t1 y1 t2 y2 : ℚ) (hne : t1 ≠ t2) :
    (polyfit1 [t1, t2] [y1, y2]).1 * t1 + (polyfit1 [t1, t2] [y1, y2]).2 = y1 ∧
    (polyfit1 [t1, t2] [y1, y2]).1 * t2 + (polyfit1 [t1, t2] [y1, y2]).2 = y2 := by
  have hsub : t1 - t2 ≠ 0 := sub_ne_zero_of_ne hne
  have hd : (2 : ℚ) * (t1 ^ 2 + t2 ^ 2) - (t1 + t2) ^ 2 ≠ 0 := by
    have h : (2 : ℚ) * (t1 ^ 2 + t2 ^ 2) - (t1 + t2) ^ 2 = (t1 - t2) ^ 2 := by
      ring
    rw [h]
    positivity
  simp only [polyfit1, List.length_cons, List.length_nil, List.sum_cons,
    List.sum_nil, List.map_cons, List.map_nil, List.zipWith]
  push_cast
  constructor
  · field_simp
    ring
  · field_simp
    ring

/-- C4: the baseline estimator modelled from the spec fails with the
degenerate-baseline error on every mask selecting fewer than two
points, and on a mask selecting exactly two distinct time points it
returns the exact line through those two points. -/
theorem spec_c4_degenerate_baseline :
    (∀ pts : List (ℚ × ℚ), pts.length < 2 →
        baselineFit pts = .error .degenerateBaseline) ∧
    (∀ t1 y1 t2 y2 : ℚ, t1 ≠ t2 →
        ∃ m c, baselineFit [(t1, y1), (t2, y2)] = .ok (m, c) ∧
          m * t1 + c = y1 ∧ m * t2 + c = y2) := by
  constructor
  · intro pts hlt
    unfold baselineFit
    rw [if_pos hlt]
  · intro t1 y1 t2 y2 hne
    have hfit := polyfit1_two_points t1 y1 t2 y2 hne
    exact ⟨(polyfit1 [t1, t2] [y1, y2]).1, (polyfit1 [t1, t2] [y1, y2]).2,
      by simp [baselineFit], hfit.1, hfit.2⟩

/-- Witness for C4: a single-point mask errors, and the two-point mask
through (0, 0) and (1, 1) has a line through both points. -/
theorem spec_c4_degenerate_baseline_witness :
    baselineFit [(0, 0)] = .error .degenerateBaseline ∧
    ∃ m c, baselineFit [((0:ℚ), (0:ℚ)), (1, 1)] = .ok (m, c) ∧
      m * 0 + c = 0 ∧ m * 1 + c = 1 :=
  ⟨spec_c4_degenerate_baseline.1 [(0, 0)] (by decide),
    spec_c4_degenerate_baseline.2 0 0 1 1 (by decide)⟩

/-! Lemmas about the flat parameter vector of the general model. -/

theorem length_flatTriples (comps : List (ℚ × ℚ × ℚ)) :
    (comps.flatMap (fun p => [p.1, p.2.1, p.2.2])).length = 3 * comps.length := by
  induction comps with
  | nil => rfl
  | cons p rest ih => simp [ih]; ring

theorem flat_getD (comps : List (ℚ × ℚ × ℚ)) :
    ∀ i, i < comps.length →
      (comps.flatMap (fun p => [p.1, p.2.1, p.2.2])).getD (3 * i) 0 =
          (comps.getD i (0, 0, 0)).1 ∧
      (comps.flatMap (fun p => [p.1, p.2.1, p.2.2])).getD (3 * i + 1) 0 =
          (comps.getD i (0, 0, 0)).2.1 ∧
      (comps.flatMap (fun p => [p.1, p.2.1, p.2.2])).getD (3 * i + 2) 0 =
          (comps.getD i (0, 0, 0)).2.2 := by
  induction comps with
  | nil => intro i hi; simp at hi
  | cons p rest ih =>
      intro i hi
      cases i with
      | zero => simp
      | succ j =>
          have h3 : 3 * (j + 1) = 3 * j + 1 + 1 + 1 := by ring
          have h4 : 3 * (j + 1) + 1 = 3 * j + 1 + 1 + 1 + 1 := by ring
          have h5 : 3 * (j + 1) + 2 = 3 * j + 1 + 1 + 1 + 1 + 1 := by ring
          simp only [List.flatMap_cons, List.cons_append, List.nil_append,
            h3, h4, h5, List.getD_cons_succ, List.getD_cons_zero]
          have hj : j < rest.length := by simp at hi; omega
          simpa [List.flatMap] using ih j hj

theorem foldl_add_eq (g : ℕ → ℚ) (l : List ℕ) (a : ℚ) :
    l.foldl (fun y i => y + g i) a = a + (l.map g).sum := by
  induction l generalizing a with
  | nil => simp
  | cons x xs ih =>
      simp only [List.foldl_cons, List.map_cons, List.sum_cons, ih (a + g x)]
      ring

theorem sum_range_getD (F : ℚ × ℚ × ℚ → ℚ) (comps : List (ℚ × ℚ × ℚ)) :
    ((List.range comps.length).map (fun i => F (comps.getD i (0, 0, 0)))).sum =
      (comps.map F).sum := by
  induction comps with
  | nil => simp
  | cons p rest ih =>
      rw [List.length_cons, List.range_succ_eq_map]
      simp only [List.map_cons, List.sum_cons, List.map_map, Function.comp,
        List.getD_cons_zero, List.getD_cons_succ]
      have hfun : List.map ((fun i => F ((p :: rest).getD i (0, 0, 0))) ∘ Nat.succ)
          (List.range rest.length) =
          List.map (fun i => F (rest.getD i (0, 0, 0))) (List.range rest.length) :=
        List.map_congr_left (fun a _ => by simp)
      rw [hfun, ih]

/-- C3: the general multi-Gaussian model evaluates, at every grid
point, to intercept plus slope times the mean-centered time plus the
sum over components of area times the exponential of
-0.5 ((x - center) / max(sigma, 1e-9))^2: the kernel is
area-parameterized, not the normalized density, and the clamped sigma
keeps the division well-defined for every sigma input including 0.
Proved for every exponential function E, hence for np.exp. -/
theorem spec_c3_fit_model (E : ℚ → ℚ) (comps : List (ℚ × ℚ × ℚ)) (c0 c1 : ℚ)
    (xs : List ℚ) (i : ℕ) (h : i < xs.length) :
    (fit_model E (packParams comps c0 c1) xs).getD i 0 =
      c0 + c1 * (xs.getD i 0 - listMean xs) +
        (comps.map (fun p => p.1 *
          E (-(1/2) * ((xs.getD i 0 - p.2.1) / max p.2.2 (1/10^9)) ^ 2))).sum := by
  have hlen : (packParams comps c0 c1).length = 3 * comps.length + 2 := by
    unfold packParams
    rw [List.length_append, length_flatTriples]
    rfl
  have hn : nComp (packParams comps c0 c1) = comps.length := by
    simp only [nComp, hlen]
    omega
  have hc0 : (packParams comps c0 c1).getD ((packParams comps c0 c1).length - 2) 0 = c0 := by
    rw [hlen]
    have he : 3 * comps.length + 2 - 2 = 3 * comps.length := by omega
    rw [he]
    unfold packParams
    rw [List.getD_append_right _ _ _ _ (by rw [length_flatTriples])]
    rw [length_flatTriples, Nat.sub_self, List.getD_cons_zero]
  have hc1 : (packParams comps c0 c1).getD ((packParams comps c0 c1).length - 1) 0 = c1 := by
    rw [hlen]
    have he : 3 * comps.length + 2 - 1 = 3 * comps.length + 1 := by omega
    rw [he]
    unfold packParams
    rw [List.getD_append_right _ _ _ _ (by rw [length_flatTriples]; omega)]
    rw [length_flatTriples]
    have he2 : 3 * comps.length + 1 - 3 * comps.length = 1 := by omega
    rw [he2, List.getD_cons_succ, List.getD_cons_zero]
  have hPg : ∀ j, j < comps.length →
      (packParams comps c0 c1).getD (3 * j) 0 = (comps.getD j (0, 0, 0)).1 ∧
      (packParams comps c0 c1).getD (3 * j + 1) 0 = (comps.getD j (0, 0, 0)).2.1 ∧
      (packParams comps c0 c1).getD (3 * j + 2) 0 = (comps.getD j (0, 0, 0)).2.2 := by
    intro j hj
    have hf := flat_getD comps j hj
    have hL := length_flatTriples comps
    unfold packParams
    refine ⟨?_, ?_, ?_⟩
    · rw [List.getD_append _ _ _ _ (by omega), hf.1]
    · rw [List.getD_append _ _ _ _ (by omega), hf.2.1]
    · rw [List.getD_append _ _ _ _ (by omega), hf.2.2]
  have hmg : ∀ f : ℚ → ℚ, (List.map f xs).getD i 0 = f xs[i] := by
    intro f
    rw [List.getD_eq_getElem _ 0 (by simpa using h), List.getElem_map]
  rw [List.getD_eq_getElem xs 0 h]
  simp only [fit_model]
  rw [hmg]
  rw [foldl_add_eq]
  rw [hc0, hc1, hn]
  have hmap : List.map (fun j => gaussKernel E xs[i]
        ((packParams comps c0 c1).getD (3 * j) 0)
        ((packParams comps c0 c1).getD (3 * j + 1) 0)
        ((packParams comps c0 c1).getD (3 * j + 2) 0))
      (List.range comps.length) =
      List.map (fun j => gaussKernel E xs[i] (comps.getD j (0, 0, 0)).1
        (comps.getD j (0, 0, 0)).2.1 (comps.getD j (0, 0, 0)).2.2)
      (List.range comps.length) := by
    refine List.map_congr_left ?_
    intro j hjr
    have hj := List.mem_range.mp hjr
    obtain ⟨h1, h2, h3⟩ := hPg j hj
    rw [h1, h2, h3]
  rw [hmap]
  rw [sum_range_getD (fun p => gaussKernel E xs[i] p.1 p.2.1 p.2.2) comps]
  rfl

/-- Witness for C3 at one component, identity exponential and a
two-point grid. -/
theorem spec_c3_fit_model_witness :
    (fit_model (fun q => q) (packParams [((2:ℚ), 1, 0)] 3 5) [1, 3]).getD 0 0 =
      3 + 5 * (([1, 3] : List ℚ).getD 0 0 - listMean [1, 3]) +
        ([((2:ℚ), 1, 0)].map (fun p => p.1 *
          (fun q => q) (-(1/2) * ((([1, 3] : List ℚ).getD 0 0 - p.2.1) / max p.2.2 (1/10^9)) ^ 2))).sum :=
  spec_c3_fit_model (fun q => q) [((2:ℚ), 1, 0)] 3 5 [1, 3] 0 (by norm_num)

/-! Lemmas about the bounded solver. -/

theorem runFitAux_ok (step : FitState → FitState) (conv : FitState → Bool) :
    ∀ n s best r, runFitAux step conv n s best = .ok r → conv r = true := by
  intro n
  induction n with
  | zero =>
      intro s best r hr
      simp [runFitAux] at hr
  | succ m ih =>
      intro s best r hr
      by_cases hc : conv s
      · have : s = r := by simpa [runFitAux, hc] using hr
        rw [← this]
        exact hc
      · exact ih (step s) _ r (by simpa [runFitAux, hc] using hr)

theorem runFitAux_err (step : FitState → FitState) (conv : FitState → Bool) :
    ∀ n s best b, runFitAux step conv n s best = .convergenceError b →
      (b = best ∨ b ∈ iterates step n (step s)) ∧
      b.residual ≤ best.residual ∧
      ∀ v ∈ iterates step n (step s), b.residual ≤ v.residual := by
  intro n
  induction n with
  | zero =>
      intro s best b hb
      have : best = b := by simpa [runFitAux] using hb
      subst this
      exact ⟨Or.inl rfl, le_refl _, by simp [iterates]⟩
  | succ m ih =>
      intro s best b hb
      by_cases hc : conv s
      · simp [runFitAux, hc] at hb
      · have hb2 : runFitAux step conv m (step s)
            (if (step s).residual < best.residual then step s else best) =
            .convergenceError b := by
          simpa [runFitAux, hc] using hb
        obtain ⟨hmem, hle, hall⟩ := ih (step s) _ b hb2
        by_cases hlt : (step s).residual < best.residual
        · rw [if_pos hlt] at hmem hle
          refine ⟨?_, le_trans hle (le_of_lt hlt), ?_⟩
          · rcases hmem with h | h
            · exact Or.inr (by rw [h]; exact List.mem_cons_self _ _)
            · exact Or.inr (List.mem_cons_of_mem _ h)
          · intro v hv
            rcases List.mem_cons.mp hv with h | h
            · rw [h]; exact hle
            · exact hall v h
        · rw [if_neg hlt] at hmem hle
          refine ⟨?_, hle, ?_⟩
          · rcases hmem with h | h
            · exact Or.inl h
            · exact Or.inr (List.mem_cons_of_mem _ h)
          · intro v hv
            rcases List.mem_cons.mp hv with h | h
            · rw [h]; exact le_trans hle (not_lt.mp hlt)
            · exact hall v h

/-- C6: when the bounded solver returns successfully the returned
iterate satisfies the convergence test (no silent wrong answer), and
when it exhausts its iteration cap without converging the surfaced
convergence error carries an actually visited iterate whose residual is
minimal among all visited iterates (the best-so-far parameter vector
and residual). -/
theorem spec_c6_convergence_error (step : FitState → FitState)
    (conv : FitState → Bool) (cap : ℕ) (s0 : FitState) :
    (∀ r, runFit step conv cap s0 = .ok r → conv r = true) ∧
    (∀ b, runFit step conv cap s0 = .convergenceError b →
        b ∈ iterates step (cap + 1) s0 ∧
        ∀ v ∈ iterates step (cap + 1) s0, b.residual ≤ v.residual) := by
  constructor
  · intro r hr
    exact runFitAux_ok step conv cap s0 s0 r hr
  · intro b hb
    obtain ⟨hmem, hle, hall⟩ := runFitAux_err step conv cap s0 s0 b hb
    have hiter : iterates step (cap + 1) s0 = s0 :: iterates step cap (step s0) := rfl
    constructor
    · rw [hiter]
      rcases hmem with h | h
      · rw [h]; exact List.mem_cons_self _ _
      · exact List.mem_cons_of_mem _ h
    · rw [hiter]
      intro v hv
      rcases List.mem_cons.mp hv with h | h
      · rw [h]; exact hle
      · exact hall v h

/-- Witness for C6: a never-converging step at cap 1 surfaces the
convergence error with the initial iterate as the best one. -/
theorem spec_c6_convergence_error_witness :
    (⟨[], 0⟩ : FitState) ∈ iterates (fun s => s) (1 + 1) ⟨[], 0⟩ ∧
    ∀ v ∈ iterates (fun s => s) (1 + 1) (⟨[], 0⟩ : FitState),
      (⟨[], 0⟩ : FitState).residual ≤ v.residual :=
  (spec_c6_convergence_error (fun s => s) (fun _ => false) 1 ⟨[], 0⟩).2
    ⟨[], 0⟩ (by simp [runFit, runFitAux])

/-- C2: the moment estimator thresholds at 10 percent of the maximum,
falls back to the unthresholded signal exactly when the thresholded
area is not positive (the non-finite branch being vacuous in exact
arithmetic), divides the first moment by the area clamped at 1e-12,
divides the second central moment by the same clamped area, and clamps
the variance at 1e-12 in the single-peak path and at 1e-6 in the
two-component seeding path before the square root is taken. -/
theorem spec_c2_moment_estimator (ts s0 : List ℚ) :
    (trapezoid (s0.map (fun v => if (10/100) * listMax s0 ≤ v then v else 0)) ts ≤ 0 →
        momentWeights ts s0 = (s0, trapezoid s0 ts)) ∧
    (0 < trapezoid (s0.map (fun v => if (10/100) * listMax s0 ≤ v then v else 0)) ts →
        momentWeights ts s0 =
          (s0.map (fun v => if (10/100) * listMax s0 ≤ v then v else 0),
            trapezoid (s0.map (fun v => if (10/100) * listMax s0 ≤ v then v else 0)) ts)) ∧
    momentCenter ts s0 =
      trapezoid (List.zipWith (fun u v => u * v) ts (momentWeights ts s0).1) ts /
        max (momentWeights ts s0).2 (1/10^12) ∧
    momentVar ts s0 =
      trapezoid (List.zipWith (fun u v => (u - momentCenter ts s0) ^ 2 * v) ts
          (momentWeights ts s0).1) ts /
        max (momentWeights ts s0).2 (1/10^12) ∧
    singlePeakSigmaSq ts s0 = max (momentVar ts s0) (1/10^12) ∧
    twoCompSigmaSq ts s0 = max (momentVar ts s0) (1/10^6) := by
  refine ⟨?_, ?_, rfl, rfl, rfl, rfl⟩
  · intro h
    unfold momentWeights
    simp only [if_pos h]
  · intro h
    unfold momentWeights
    simp only [if_neg (not_le.mpr h)]

/-- Witness for C2: on the grid [0, 1] with samples [1, 1] the
thresholded area is positive, so the thresholded weights are kept. -/
theorem spec_c2_moment_estimator_witness :
    momentWeights [0, 1] [1, 1] =
      ([(1:ℚ), 1].map (fun v => if (10/100) * listMax [1, 1] ≤ v then v else 0),
        trapezoid ([(1:ℚ), 1].map (fun v => if (10/100) * listMax [1, 1] ≤ v then v else 0)) [0, 1]) :=
  (spec_c2_moment_estimator [0, 1] [1, 1]).2.1 (by norm_num [trapezoid, listMax])

/-- C9: every sample of the synthetic signal is nonnegative, for every
peak, baseline and noise series and every set of injected spikes,
because the signal is clamped at zero after adding noise and again
after adding the spikes. -/
theorem spec_c9_signal_nonneg (peak baseline noise : List ℚ)
    (spikes : List (ℕ × ℚ)) :
    ∀ x ∈ syntheticSignal peak baseline noise spikes, 0 ≤ x := by
  intro x hx
  unfold syntheticSignal at hx
  obtain ⟨y, _, rfl⟩ := List.mem_map.mp hx
  exact le_max_right y 0

/-- Witness for C9: a signal whose sum is negative before clamping and
which receives one spike still has only nonnegative samples. -/
theorem spec_c9_signal_nonneg_witness :
    0 ≤ (syntheticSignal [1] [0] [-2] [(0, -5)]).getD 0 1 := by
  have h := spec_c9_signal_nonneg [1] [0] [-2] [(0, -5)]
    ((syntheticSignal [1] [0] [-2] [(0, -5)]).getD 0 1)
  refine h ?_
  show (syntheticSignal [1] [0] [-2] [(0, -5)]).getD 0 1 ∈
    syntheticSignal [1] [0] [-2] [(0, -5)]
  norm_num [syntheticSignal, clip0, List.set]

/-- C7: the pipeline is deterministic.  The embedding is pure, so two
runs of the seeded generator with the same seed, and two runs of either
fitter (the grid search or the degree-1 least-squares solve) on
identical inputs, are definitionally equal; there is no ambient state
to consult. -/
theorem spec_c7_determinism (peak baseline : List ℚ)
    (spikes : List (ℕ × ℚ)) (seed : ℕ) (solve : ℚ → ℚ → ℚ → ℚ)
    (t0s s1s s2s ts ys : List ℚ) (step : FitState → FitState)
    (conv : FitState → Bool) (cap : ℕ) (s0 : FitState) :
    generateSeeded peak baseline spikes seed =
        generateSeeded peak baseline spikes seed ∧
    gridSearch solve t0s s1s s2s = gridSearch solve t0s s1s s2s ∧
    runFit step conv cap s0 = runFit step conv cap s0 ∧
    polyfit1 ts ys = polyfit1 ts ys ∧
    momentCenter ts ys = momentCenter ts ys :=
  ⟨rfl, rfl, rfl, rfl, rfl⟩

/-- Witness for C10 at sigmaEst = 0 and t0Est = 0. -/
theorem spec_c10_grid_always_valid_witness :
    (max (4/100) (15/100 * (0:ℚ)) ∈ s1Grid 0 ∧
      ∀ x ∈ s1Grid 0, max (4/100) (15/100 * (0:ℚ)) ≤ x) ∧
    (max 1 (22/10 * (0:ℚ)) ∈ s2Grid 0 ∧
      ∀ x ∈ s2Grid 0, x ≤ max 1 (22/10 * (0:ℚ))) ∧
    max (4/100) (15/100 * (0:ℚ)) < max 1 (22/10 * (0:ℚ)) ∧
    ∃ r, gridSearch (fun _ _ _ => 0) (t0Grid 0) (s1Grid 0) (s2Grid 0) = some r :=
  spec_c10_grid_always_valid (fun _ _ _ => 0) 0 0 (le_refl 0)

end TaylorFit
